import Mathlib

/-!
# Verification of the safe-txe codecs

A shallow embedding, in Lean 4, of the pure codec layer of the `safe-txe`
TypeScript library:

* hex/byte primitives (`src/bytes.ts`),
* the RLP codec (`src/rlp.ts`),
* the Safe transaction codec (`src/safe.ts`),
* the TXE binary envelope codec (`src/txe.ts` and the copy in `src/index.ts`),
* circuit input assembly (`extract` / `conceal` in `src/circuit.ts`).

Byte strings (`Uint8Array` / `0x…` hex strings in the source) are modelled as
`List Nat`, with the invariant "every entry `< 256`" carried as an explicit
hypothesis where a statement depends on it.  JavaScript `slice` clamps to the
array bounds, which is modelled with `List.drop`/`List.take` (both clamp).
`DataView.getUint16`/`setUint16` default to big-endian and wrap their argument
to 16 bits; `setUint8` wraps to 8 bits.
-/

namespace SafeTxe

/-! ## Byte-level primitives

`bytesToNat` is the value of a big-endian byte string (the source reads
integers back with `Number`/`BigInt` over the hex rendering of the bytes).
`beBytes` is the minimal big-endian byte string of a natural number (the
source produces it via `toHex`, which renders a minimal even-length hex
string, `0` becoming the empty string). -/

def bytesToNat (l : List Nat) : Nat :=
  l.foldl (fun acc b => acc * 256 + b) 0

def beBytes (n : Nat) : List Nat :=
  if h : n = 0 then [] else beBytes (n / 256) ++ [n % 256]
decreasing_by exact Nat.div_lt_self (Nat.pos_of_ne_zero h) (by norm_num)

theorem beBytes_zero : beBytes 0 = [] := by
  rw [beBytes]
  simp

theorem beBytes_pos (n : Nat) (h : n ≠ 0) :
    beBytes n = beBytes (n / 256) ++ [n % 256] := by
  rw [beBytes]
  simp [h]

theorem beBytes_eq_nil_iff (n : Nat) : beBytes n = [] ↔ n = 0 := by
  constructor
  · intro h
    by_contra hn
    rw [beBytes_pos n hn] at h
    simp at h
  · rintro rfl
    exact beBytes_zero

theorem bytesToNat_append (l₁ l₂ : List Nat) :
    bytesToNat (l₁ ++ l₂) = bytesToNat l₁ * 256 ^ l₂.length + bytesToNat l₂ := by
  induction l₂ using List.reverseRecOn with
  | nil => simp [bytesToNat]
  | append_singleton l₂ b ih =>
      simp only [bytesToNat, List.foldl_append, List.foldl_cons, List.foldl_nil] at *
      rw [ih]
      simp only [List.length_append, List.length_cons, List.length_nil, pow_succ, pow_zero]
      ring

theorem bytesToNat_singleton (b : Nat) : bytesToNat [b] = b := by
  simp [bytesToNat]

theorem bytesToNat_beBytes (n : Nat) : bytesToNat (beBytes n) = n := by
  induction n using Nat.strong_induction_on with
  | _ n ih =>
    by_cases h : n = 0
    · subst h; simp [beBytes_zero, bytesToNat]
    · rw [beBytes_pos n h, bytesToNat_append, bytesToNat_singleton]
      rw [ih (n / 256) (Nat.div_lt_self (Nat.pos_of_ne_zero h) (by norm_num))]
      simp [List.length]
      omega

theorem beBytes_head_ne_zero (n : Nat) : ∀ b l, beBytes n = b :: l → b ≠ 0 := by
  induction n using Nat.strong_induction_on with
  | _ n ih =>
    intro b l h
    by_cases hn : n = 0
    · subst hn; rw [beBytes_zero] at h; cases h
    · rw [beBytes_pos n hn] at h
      by_cases hq : n / 256 = 0
      · rw [hq, beBytes_zero] at h
        simp only [List.nil_append, List.cons.injEq] at h
        obtain ⟨hb, -⟩ := h
        -- n < 256 and n ≠ 0, so the single byte n % 256 = n is nonzero
        have hlt : n < 256 := (Nat.div_eq_zero_iff (by norm_num)).mp hq
        omega
      · obtain ⟨b', l', hbl⟩ : ∃ b' l', beBytes (n / 256) = b' :: l' := by
          cases hq' : beBytes (n / 256) with
          | nil => exact absurd ((beBytes_eq_nil_iff _).mp hq') hq
          | cons b' l' => exact ⟨b', l', rfl⟩
        rw [hbl] at h
        simp only [List.cons_append, List.cons.injEq] at h
        obtain ⟨hb, -⟩ := h
        have := ih (n / 256) (Nat.div_lt_self (Nat.pos_of_ne_zero hn) (by norm_num)) b' l' hbl
        rwa [hb] at this

theorem beBytes_all_lt (n : Nat) : ∀ b ∈ beBytes n, b < 256 := by
  induction n using Nat.strong_induction_on with
  | _ n ih =>
    by_cases hn : n = 0
    · subst hn; simp [beBytes_zero]
    · rw [beBytes_pos n hn]
      intro b hb
      rcases List.mem_append.mp hb with h | h
      · exact ih (n / 256) (Nat.div_lt_self (Nat.pos_of_ne_zero hn) (by norm_num)) b h
      · simp at h
        subst h
        exact Nat.mod_lt _ (by norm_num)

theorem beBytes_length_le (n k : Nat) (h : n < 256 ^ k) : (beBytes n).length ≤ k := by
  induction k generalizing n with
  | zero =>
      simp at h
      subst h
      simp [beBytes_zero]
  | succ k ih =>
      by_cases hn : n = 0
      · subst hn; simp [beBytes_zero]
      · rw [beBytes_pos n hn]
        have : n / 256 < 256 ^ k := by
          rw [Nat.div_lt_iff_lt_mul (by norm_num : 0 < 256)]
          calc n < 256 ^ (k + 1) := h
            _ = 256 ^ k * 256 := by ring
        simpa using ih (n / 256) this

theorem bytesToNat_lt (l : List Nat) (h : ∀ b ∈ l, b < 256) :
    bytesToNat l < 256 ^ l.length := by
  induction l using List.reverseRecOn with
  | nil => simp [bytesToNat]
  | append_singleton l b ih =>
      rw [bytesToNat_append, bytesToNat_singleton]
      have hb : b < 256 := h b (by simp)
      have hl : bytesToNat l < 256 ^ l.length := ih (fun x hx => h x (by simp [hx]))
      simp only [List.length_append, List.length_singleton]
      calc bytesToNat l * 256 ^ 1 + b
          ≤ (256 ^ l.length - 1) * 256 + 255 := by
            have : bytesToNat l ≤ 256 ^ l.length - 1 := by omega
            have h2 : bytesToNat l * 256 ^ 1 ≤ (256 ^ l.length - 1) * 256 := by
              simpa using Nat.mul_le_mul_right 256 this
            omega
        _ < 256 ^ (l.length + 1) := by
            have : 1 ≤ 256 ^ l.length := Nat.one_le_pow _ _ (by norm_num)
            rw [pow_succ]
            omega

theorem beBytes_length_minimal (n : Nat) (l : List Nat) (hlt : ∀ b ∈ l, b < 256)
    (hv : bytesToNat l = n) : (beBytes n).length ≤ l.length := by
  apply beBytes_length_le
  rw [← hv]
  exact bytesToNat_lt l hlt

/-! ## RLP codec (`src/rlp.ts`)

Decoded RLP data (the source's `Decode = Bytes | Decode[]`) is a tree of byte
strings and lists.  The encoder's numeric leaves (`number | bigint`) are
rendered by the source as minimal big-endian hex before encoding, which is
`beBytes` here; callers (the Safe codec) apply that conversion explicitly. -/

inductive RItem where
  | bytes (data : List Nat) : RItem
  | list (items : List RItem) : RItem

/-- `lengthPrefix` of `src/rlp.ts`, applied to the already-concatenated
payload of the chunks. -/
def lengthPrefix (offset : Nat) (payload : List Nat) : List Nat :=
  if payload.length < 56 then
    (offset + payload.length) :: payload
  else
    (offset + 55 + (beBytes payload.length).length) :: (beBytes payload.length ++ payload)

/-- The byte-string case of `encode` in `src/rlp.ts`: a single byte `< 0x80`
is its own encoding, anything else gets a `0x80`-offset length prefix. -/
def encBytes (s : List Nat) : List Nat :=
  match s with
  | [b] => if b < 0x80 then [b] else lengthPrefix 0x80 [b]
  | _ => lengthPrefix 0x80 s

/-- The numeric case of `encode` in `src/rlp.ts`: a `number`/`bigint` is
rendered as its minimal big-endian byte string (via `toHex`) and encoded as a
byte string. -/
def encNat (n : Nat) : List Nat :=
  encBytes (beBytes n)

mutual

/-- `encode` of `src/rlp.ts` on already-converted items. -/
def encodeItem : RItem → List Nat
  | .bytes s => encBytes s
  | .list items => lengthPrefix 0xc0 (encodeList items)

/-- Concatenation of the encodings of a list's children
(`data.map(encode)` flattened by `lengthPrefix`). -/
def encodeList : List RItem → List Nat
  | [] => []
  | x :: xs => encodeItem x ++ encodeList xs

end

/-- Error kinds of the RLP decoder in `src/rlp.ts`.  `badLengthPrefix` is the
`"invalid length prefix"` error of the source's `catch` block; nothing inside
the corresponding `try` can actually throw (JavaScript `slice` clamps), so no
execution of the model produces it.  `divergence` stands for the one input
family on which the source's decode loop never terminates (a lone long-form
tag byte inside a list payload re-enters `next` without consuming input). -/
inductive RlpError where
  | emptyInput : RlpError
  | trailingBytes : RlpError
  | badLengthPrefix : RlpError
  | divergence : RlpError
deriving DecidableEq

/-- `prefixedLength` of `src/rlp.ts`.  JavaScript `slice` clamps to the array
bounds (`drop`/`take` here).  In the long form, when the length bytes slice is
empty the source computes `Number("0x") = NaN`; `slice(start, NaN)` is then
empty and `slice(NaN)` is the whole array, which is modelled by the
`lbytes.isEmpty` branch. -/
def prefixedLength (tag offset : Nat) (data : List Nat) : List Nat × List Nat :=
  if tag ≤ offset + 55 then
    ((data.drop 1).take (tag - offset), data.drop (1 + (tag - offset)))
  else if ((data.drop 1).take (tag - (offset + 55))).isEmpty then
    ([], data)
  else
    ((data.drop (1 + (tag - (offset + 55)))).take
        (bytesToNat ((data.drop 1).take (tag - (offset + 55)))),
      data.drop (1 + (tag - (offset + 55)) + bytesToNat ((data.drop 1).take (tag - (offset + 55)))))

theorem prefixedLength_fst_le (tag offset t : Nat) (l : List Nat) :
    ((prefixedLength tag offset (t :: l)).1).length ≤ l.length := by
  unfold prefixedLength
  split
  · simp only [List.length_take, List.length_drop, List.length_cons]
    omega
  · split
    · simp
    · simp only [List.length_take, List.length_drop, List.length_cons]
      omega

mutual

/-- `next` of `src/rlp.ts`. -/
def rlpNext : (data : List Nat) → Except RlpError (RItem × List Nat)
  | [] => .error .emptyInput
  | t :: tl =>
    if t ≤ 0x7f then .ok (.bytes [t], tl)
    else if t ≤ 0xbf then
      let pr := prefixedLength t 0x80 (t :: tl)
      .ok (.bytes pr.1, pr.2)
    else
      let pr := prefixedLength t 0xc0 (t :: tl)
      match rlpItems pr.1 with
      | .ok items => .ok (.list items, pr.2)
      | .error e => .error e
termination_by data => 2 * data.length
decreasing_by
  have := prefixedLength_fst_le t 0xc0 t tl
  simp only [List.length_cons]
  omega

/-- The decode loop inside the list branch of `next`: repeatedly decode items
from the payload until it is exhausted.  The source's `while` loop makes
progress on every iteration except when `next` returns its input unchanged
(the `NaN` branch of `prefixedLength`), where the source spins forever; that
case is surfaced as `RlpError.divergence`. -/
def rlpItems : (payload : List Nat) → Except RlpError (List RItem)
  | [] => .ok []
  | p :: pl =>
    match rlpNext (p :: pl) with
    | .error e => .error e
    | .ok (item, rest) =>
      if hlt : rest.length < (p :: pl).length then
        match rlpItems rest with
        | .ok items => .ok (item :: items)
        | .error e => .error e
      else .error .divergence
termination_by payload => 2 * payload.length + 1
decreasing_by
  · omega
  · omega

end

/-- `decode` of `src/rlp.ts`: decode one item and reject trailing bytes. -/
def rlpDecode (data : List Nat) : Except RlpError RItem :=
  match rlpNext data with
  | .error e => .error e
  | .ok (item, rest) => if rest.isEmpty then .ok item else .error .trailingBytes

/-! ### Well-formedness of an RLP tree

The tree is representable in the source when every leaf is a genuine byte
string (entries `< 256`) and every payload length fits in 8 length bytes
(`< 2 ^ 64`, so the long-form tag byte does not overflow a byte). -/

mutual

def itemOk : RItem → Bool
  | .bytes s => s.all (fun b => decide (b < 256)) && decide (s.length < 2 ^ 64)
  | .list items => itemsOk items && decide ((encodeList items).length < 2 ^ 64)

def itemsOk : List RItem → Bool
  | [] => true
  | x :: xs => itemOk x && itemsOk xs

end

theorem lengthPrefix_length_pos (offset : Nat) (payload : List Nat) :
    0 < (lengthPrefix offset payload).length := by
  unfold lengthPrefix
  split <;> simp

theorem encodeItem_length_pos (x : RItem) : 0 < (encodeItem x).length := by
  cases x with
  | bytes s =>
      rcases s with _ | ⟨b, _ | ⟨c, cs⟩⟩
      · simp only [encodeItem, encBytes]
        exact lengthPrefix_length_pos _ _
      · simp only [encodeItem, encBytes]
        split
        · simp
        · exact lengthPrefix_length_pos _ _
      · simp only [encodeItem, encBytes]
        exact lengthPrefix_length_pos _ _
  | list items =>
      simp only [encodeItem]
      exact lengthPrefix_length_pos _ _

/-! ### Single-step unfolding lemmas for the decoder -/

theorem rlpNext_small (t : Nat) (tl : List Nat) (h : t ≤ 0x7f) :
    rlpNext (t :: tl) = .ok (.bytes [t], tl) := by
  rw [rlpNext]
  simp [h]

theorem rlpNext_mid (t : Nat) (tl : List Nat) (h1 : 0x7f < t) (h2 : t ≤ 0xbf) :
    rlpNext (t :: tl) =
      .ok (.bytes (prefixedLength t 0x80 (t :: tl)).1, (prefixedLength t 0x80 (t :: tl)).2) := by
  rw [rlpNext]
  simp [Nat.not_le.mpr h1, h2]

theorem rlpNext_big (t : Nat) (tl : List Nat) (hbig : 0xbf < t) (items : List RItem)
    (hitems : rlpItems (prefixedLength t 0xc0 (t :: tl)).1 = .ok items) :
    rlpNext (t :: tl) = .ok (.list items, (prefixedLength t 0xc0 (t :: tl)).2) := by
  rw [rlpNext]
  simp [Nat.not_le.mpr hbig, Nat.not_le.mpr (by omega : (0x7f : Nat) < t), hitems]

theorem rlpItems_nil : rlpItems [] = .ok [] := by
  rw [rlpItems]

theorem rlpItems_step (data : List Nat) (hne : data ≠ []) (item : RItem) (rest : List Nat)
    (hnext : rlpNext data = .ok (item, rest)) (hlt : rest.length < data.length) :
    rlpItems data = (rlpItems rest).map (fun items => item :: items) := by
  cases data with
  | nil => exact absurd rfl hne
  | cons p pl =>
      rw [rlpItems]
      simp only [hnext, hlt, dif_pos]
      cases h' : rlpItems rest <;> simp [Except.map]

/-! ### Decoding an encoding -/

theorem drop_one_add_cons (k a : Nat) (l : List Nat) :
    (a :: l).drop (1 + k) = l.drop k := by
  rw [Nat.add_comm, List.drop_succ_cons]

theorem prefixedLength_short (offset L : Nat) (s rest : List Nat)
    (hL : s.length = L) (h56 : L ≤ 55) :
    prefixedLength (offset + L) offset ((offset + L) :: (s ++ rest)) = (s, rest) := by
  unfold prefixedLength
  rw [if_pos (by omega)]
  have h1 : offset + L - offset = L := by omega
  rw [h1, List.drop_one, List.tail_cons, List.take_left' hL, drop_one_add_cons,
    List.drop_left' hL]

theorem prefixedLength_long (offset L : Nat) (s rest : List Nat)
    (hL : s.length = L) (h0 : L ≠ 0) :
    prefixedLength (offset + 55 + (beBytes L).length) offset
      ((offset + 55 + (beBytes L).length) :: (beBytes L ++ (s ++ rest))) = (s, rest) := by
  have hlb : beBytes L ≠ [] := fun h => h0 ((beBytes_eq_nil_iff L).mp h)
  have hlsize : 1 ≤ (beBytes L).length := List.length_pos.mpr hlb
  unfold prefixedLength
  rw [if_neg (by omega)]
  have h1 : offset + 55 + (beBytes L).length - (offset + 55) = (beBytes L).length := by omega
  rw [h1, List.drop_one, List.tail_cons, List.take_left]
  rw [if_neg (by simp [hlb])]
  rw [bytesToNat_beBytes]
  have e2 : 1 + (beBytes L).length + L = 1 + ((beBytes L).length + L) := by omega
  rw [e2, drop_one_add_cons, drop_one_add_cons, List.drop_left, List.take_left' hL]
  rw [List.drop_append_eq_append_drop, List.drop_eq_nil_of_le (by omega)]
  have e3 : (beBytes L).length + L - (beBytes L).length = L := by omega
  rw [e3, List.nil_append, List.drop_left' hL]

theorem beBytes_length_pos (L : Nat) (h0 : L ≠ 0) : 1 ≤ (beBytes L).length := by
  rcases Nat.eq_zero_or_pos (beBytes L).length with hz | hp
  · exact absurd ((beBytes_eq_nil_iff _).mp (List.length_eq_zero.mp hz)) h0
  · exact hp

theorem rlpNext_lengthPrefix_bytes (s rest : List Nat) (h64 : s.length < 2 ^ 64) :
    rlpNext (lengthPrefix 0x80 s ++ rest) = .ok (.bytes s, rest) := by
  by_cases h : s.length < 56
  · unfold lengthPrefix
    rw [if_pos h, List.cons_append]
    rw [rlpNext_mid _ _ (by omega) (by omega)]
    rw [prefixedLength_short 0x80 s.length s rest rfl (by omega)]
  · have h0 : s.length ≠ 0 := by omega
    have hls : (beBytes s.length).length ≤ 8 :=
      beBytes_length_le _ 8 (by
        calc s.length < 2 ^ 64 := h64
          _ = 256 ^ 8 := by norm_num)
    have hls1 : 1 ≤ (beBytes s.length).length := beBytes_length_pos _ h0
    unfold lengthPrefix
    rw [if_neg h, List.cons_append, List.append_assoc]
    rw [rlpNext_mid _ _ (by omega) (by omega)]
    rw [prefixedLength_long 0x80 s.length s rest rfl h0]

theorem rlpNext_lengthPrefix_list (payload rest : List Nat) (items : List RItem)
    (h64 : payload.length < 2 ^ 64) (hitems : rlpItems payload = .ok items) :
    rlpNext (lengthPrefix 0xc0 payload ++ rest) = .ok (.list items, rest) := by
  by_cases h : payload.length < 56
  · unfold lengthPrefix
    rw [if_pos h, List.cons_append]
    have hpr := prefixedLength_short 0xc0 payload.length payload rest rfl (by omega)
    have hfst : (prefixedLength (0xc0 + payload.length) 0xc0
        ((0xc0 + payload.length) :: (payload ++ rest))).1 = payload := by rw [hpr]
    have hsnd : (prefixedLength (0xc0 + payload.length) 0xc0
        ((0xc0 + payload.length) :: (payload ++ rest))).2 = rest := by rw [hpr]
    rw [rlpNext_big _ _ (by omega) items (by rw [hfst]; exact hitems), hsnd]
  · have h0 : payload.length ≠ 0 := by omega
    have hls1 : 1 ≤ (beBytes payload.length).length := beBytes_length_pos _ h0
    unfold lengthPrefix
    rw [if_neg h, List.cons_append, List.append_assoc]
    have hpr := prefixedLength_long 0xc0 payload.length payload rest rfl h0
    have hfst : (prefixedLength (0xc0 + 55 + (beBytes payload.length).length) 0xc0
        ((0xc0 + 55 + (beBytes payload.length).length) ::
          (beBytes payload.length ++ (payload ++ rest)))).1 = payload := by rw [hpr]
    have hsnd : (prefixedLength (0xc0 + 55 + (beBytes payload.length).length) 0xc0
        ((0xc0 + 55 + (beBytes payload.length).length) ::
          (beBytes payload.length ++ (payload ++ rest)))).2 = rest := by rw [hpr]
    rw [rlpNext_big _ _ (by omega) items (by rw [hfst]; exact hitems), hsnd]

mutual

/-- Decoding one step of an encoded well-formed item recovers the item and
leaves the rest of the input untouched. -/
theorem rlpNext_encodeItem (x : RItem) (hx : itemOk x = true) (rest : List Nat) :
    rlpNext (encodeItem x ++ rest) = .ok (x, rest) := by
  cases x with
  | bytes s =>
      have h64 : s.length < 2 ^ 64 := by
        simp only [itemOk, Bool.and_eq_true, decide_eq_true_eq] at hx
        exact hx.2
      rcases s with _ | ⟨b, _ | ⟨c, cs⟩⟩
      · simp only [encodeItem, encBytes]
        exact rlpNext_lengthPrefix_bytes [] rest (by norm_num)
      · by_cases hb : b < 0x80
        · simp only [encodeItem, encBytes, if_pos hb, List.cons_append, List.nil_append]
          exact rlpNext_small b rest (by omega)
        · simp only [encodeItem, encBytes, if_neg hb]
          exact rlpNext_lengthPrefix_bytes [b] rest (by norm_num)
      · simp only [encodeItem, encBytes]
        exact rlpNext_lengthPrefix_bytes (b :: c :: cs) rest h64
  | list items =>
      have h1 : itemsOk items = true ∧ (encodeList items).length < 2 ^ 64 := by
        simp only [itemOk, Bool.and_eq_true, decide_eq_true_eq] at hx
        exact hx
      simp only [encodeItem]
      exact rlpNext_lengthPrefix_list (encodeList items) rest items h1.2
        (rlpItems_encodeList items h1.1)

/-- Decoding the concatenated encodings of well-formed items recovers the
items. -/
theorem rlpItems_encodeList (items : List RItem) (h : itemsOk items = true) :
    rlpItems (encodeList items) = .ok items := by
  cases items with
  | nil => simpa [encodeList] using rlpItems_nil
  | cons x xs =>
      have hx : itemOk x = true ∧ itemsOk xs = true := by
        simp only [itemsOk, Bool.and_eq_true] at h
        exact h
      have hnext : rlpNext (encodeItem x ++ encodeList xs) = .ok (x, encodeList xs) :=
        rlpNext_encodeItem x hx.1 (encodeList xs)
      have hpos := encodeItem_length_pos x
      have hne : encodeItem x ++ encodeList xs ≠ [] := by
        intro hcontra
        have hlen := congrArg List.length hcontra
        simp only [List.length_append, List.length_nil] at hlen
        omega
      have hlt : (encodeList xs).length < (encodeItem x ++ encodeList xs).length := by
        simp only [List.length_append]
        omega
      have hstep := rlpItems_step _ hne x (encodeList xs) hnext hlt
      have hxs := rlpItems_encodeList xs hx.2
      calc rlpItems (encodeList (x :: xs))
          = rlpItems (encodeItem x ++ encodeList xs) := rfl
        _ = (rlpItems (encodeList xs)).map (fun items => x :: items) := hstep
        _ = (Except.ok xs).map (fun items => x :: items) := by rw [hxs]
        _ = .ok (x :: xs) := rfl

end

/-- Full decode of an encoded well-formed item. -/
theorem rlpDecode_encodeItem (x : RItem) (hx : itemOk x = true) :
    rlpDecode (encodeItem x) = .ok x := by
  unfold rlpDecode
  have := rlpNext_encodeItem x hx []
  rw [List.append_nil] at this
  rw [this]
  rfl

/-! ## Safe transaction codec (`src/safe.ts`)

Addresses (`0x…` hex strings of 40 hex digits in the source) are 20-byte byte
strings here; `value`/`safeTxGas`/`baseGas`/`gasPrice` are `bigint`s, i.e.
naturals.  The source encodes numeric fields by first rendering them as
minimal big-endian hex (`toHex`), which is `beBytes` here, and encodes the
`operation` enum value (0 or 1) the same way. -/

inductive Operation where
  | CALL : Operation
  | DELEGATECALL : Operation
deriving DecidableEq

/-- The numeric value of the `Operation` enum in `src/safe.ts`. -/
def Operation.toNat : Operation → Nat
  | .CALL => 0
  | .DELEGATECALL => 1

structure SafeTransactionParameters where
  «to» : List Nat
  value : Nat
  data : List Nat
  operation : Operation
  safeTxGas : Nat
  baseGas : Nat
  gasPrice : Nat
  gasToken : List Nat
  refundReceiver : List Nat
deriving DecidableEq

/-- The nine payload fields, in the fixed order of the array literal in
`encode` of `src/safe.ts`, converted to RLP items the way the source's RLP
encoder converts them (hex strings stay byte strings, numbers become their
minimal big-endian bytes). -/
def safeFields (tx : SafeTransactionParameters) : List RItem :=
  [.bytes tx.to,
   .bytes (beBytes tx.value),
   .bytes tx.data,
   .bytes (beBytes tx.operation.toNat),
   .bytes (beBytes tx.safeTxGas),
   .bytes (beBytes tx.baseGas),
   .bytes (beBytes tx.gasPrice),
   .bytes tx.gasToken,
   .bytes tx.refundReceiver]

/-- `encode` of `src/safe.ts`: the nine payload fields as an RLP list;
`nonce` is not part of the payload. -/
def safeEncode (tx : SafeTransactionParameters) : List Nat :=
  encodeItem (.list (safeFields tx))

/-- Errors thrown by `decode` in `src/safe.ts`.  `invalidTransaction` is
`"invalid RLP-encoded Safe transaction"` (top item not a nine-element list);
`fieldTypeMismatch` covers the `"invalid address/bytes/bigint/operation
field"` errors of the `asAddress`/`asBytes`/`asBigInt`/`asOperation`
converters. -/
inductive SafeDecodeError where
  | rlp (e : RlpError) : SafeDecodeError
  | invalidTransaction : SafeDecodeError
  | fieldTypeMismatch : SafeDecodeError
deriving DecidableEq

/-- `asAddress` of `src/safe.ts`: the decoded field must be a byte string of
exactly 20 bytes (40 hex digits in the source's `isAddress` regex). -/
def asAddress : RItem → Except SafeDecodeError (List Nat)
  | .bytes s => if s.length = 20 then .ok s else .error .fieldTypeMismatch
  | .list _ => .error .fieldTypeMismatch

/-- `asBytes` of `src/safe.ts`: any byte string. -/
def asBytes : RItem → Except SafeDecodeError (List Nat)
  | .bytes s => .ok s
  | .list _ => .error .fieldTypeMismatch

/-- `asBigInt` of `src/safe.ts`: `BigInt` over the hex rendering, with `0x`
mapping to `0`, i.e. the big-endian value of the byte string. -/
def asBigInt : RItem → Except SafeDecodeError Nat
  | .bytes s => .ok (bytesToNat s)
  | .list _ => .error .fieldTypeMismatch

/-- `asOperation` of `src/safe.ts`: the decoded field is compared against
the literal strings `"0x"` (→ `CALL`) and `"0x01"` (→ `DELEGATECALL`);
anything else is rejected. -/
def asOperation : RItem → Except SafeDecodeError Operation
  | .bytes s =>
    if s = [] then .ok .CALL
    else if s = [1] then .ok .DELEGATECALL
    else .error .fieldTypeMismatch
  | .list _ => .error .fieldTypeMismatch

/-- `decode` of `src/safe.ts`: the decoded RLP item must be a list of exactly
nine elements; the fields are then converted (and, on conversion failure, the
first error is surfaced, matching the source's evaluation order). -/
def safeDecode (encoded : List Nat) : Except SafeDecodeError SafeTransactionParameters :=
  match rlpDecode encoded with
  | .error e => .error (.rlp e)
  | .ok (.bytes _) => .error .invalidTransaction
  | .ok (.list fields) =>
    match fields with
    | [f0, f1, f2, f3, f4, f5, f6, f7, f8] =>
      match asAddress f0 with
      | .error e => .error e
      | .ok «to» =>
      match asBigInt f1 with
      | .error e => .error e
      | .ok value =>
      match asBytes f2 with
      | .error e => .error e
      | .ok data =>
      match asOperation f3 with
      | .error e => .error e
      | .ok operation =>
      match asBigInt f4 with
      | .error e => .error e
      | .ok safeTxGas =>
      match asBigInt f5 with
      | .error e => .error e
      | .ok baseGas =>
      match asBigInt f6 with
      | .error e => .error e
      | .ok gasPrice =>
      match asAddress f7 with
      | .error e => .error e
      | .ok gasToken =>
      match asAddress f8 with
      | .error e => .error e
      | .ok refundReceiver =>
        .ok { «to», value, data, operation, safeTxGas, baseGas, gasPrice,
              gasToken, refundReceiver }
    | _ => .error .invalidTransaction

/-- The §3 data model for transaction parameter records: 20-byte addresses,
integers below `2 ^ 256`, and byte strings.  The bound on `data` reflects
that a JavaScript `Uint8Array` (and hence any RLP input of the source) is
far below `2 ^ 32` bytes. -/
def SafeWf (tx : SafeTransactionParameters) : Prop :=
  tx.to.length = 20 ∧ (∀ b ∈ tx.to, b < 256) ∧
  tx.gasToken.length = 20 ∧ (∀ b ∈ tx.gasToken, b < 256) ∧
  tx.refundReceiver.length = 20 ∧ (∀ b ∈ tx.refundReceiver, b < 256) ∧
  (∀ b ∈ tx.data, b < 256) ∧ tx.data.length < 2 ^ 32 ∧
  tx.value < 2 ^ 256 ∧ tx.safeTxGas < 2 ^ 256 ∧
  tx.baseGas < 2 ^ 256 ∧ tx.gasPrice < 2 ^ 256

theorem itemOk_bytes (s : List Nat) (hb : ∀ b ∈ s, b < 256) (hlen : s.length < 2 ^ 64) :
    itemOk (.bytes s) = true := by
  simp only [itemOk, Bool.and_eq_true, List.all_eq_true, decide_eq_true_eq]
  exact ⟨hb, hlen⟩

theorem itemOk_beBytes (n : Nat) (h : n < 2 ^ 256) : itemOk (.bytes (beBytes n)) = true := by
  apply itemOk_bytes _ (beBytes_all_lt n)
  have h32 : (beBytes n).length ≤ 32 :=
    beBytes_length_le n 32 (by
      calc n < 2 ^ 256 := h
        _ = 256 ^ 32 := by norm_num)
  omega

theorem beBytes_length_le_of_lt_2_256 (n : Nat) (h : n < 2 ^ 256) :
    (beBytes n).length ≤ 32 :=
  beBytes_length_le n 32 (by
    calc n < 2 ^ 256 := h
      _ = 256 ^ 32 := by norm_num)

theorem lengthPrefix_length_le (offset : Nat) (p : List Nat) (h : p.length < 2 ^ 64) :
    (lengthPrefix offset p).length ≤ p.length + 9 := by
  unfold lengthPrefix
  split
  · simp
  · have h8 : (beBytes p.length).length ≤ 8 :=
      beBytes_length_le _ 8 (by
        calc p.length < 2 ^ 64 := h
          _ = 256 ^ 8 := by norm_num)
    simp only [List.length_cons, List.length_append]
    omega

theorem encBytes_length_le (s : List Nat) (h : s.length < 2 ^ 64) :
    (encBytes s).length ≤ s.length + 9 := by
  rcases s with _ | ⟨b, _ | ⟨c, cs⟩⟩
  · simpa using lengthPrefix_length_le 0x80 [] (by norm_num)
  · simp only [encBytes]
    split
    · simp
    · simpa using lengthPrefix_length_le 0x80 [b] (by norm_num)
  · simp only [encBytes]
    exact lengthPrefix_length_le 0x80 (b :: c :: cs) h

theorem beBytes_one : beBytes 1 = [1] := by
  rw [beBytes_pos 1 one_ne_zero]
  norm_num [beBytes_zero]

theorem itemOk_safeFields (tx : SafeTransactionParameters) (h : SafeWf tx) :
    itemOk (.list (safeFields tx)) = true := by
  obtain ⟨hto, htob, hgt, hgtb, hrr, hrrb, hdb, hdlen, hv, hs, hbg, hgp⟩ := h
  have p32 : (2 : Nat) ^ 32 = 4294967296 := by norm_num
  have p64 : (2 : Nat) ^ 64 = 18446744073709551616 := by norm_num
  have hdata64 : tx.data.length < 2 ^ 64 := by omega
  have hop256 : tx.operation.toNat < 2 ^ 256 := by
    cases tx.operation <;> norm_num [Operation.toNat]
  have h9 : itemsOk (safeFields tx) = true := by
    simp only [safeFields, itemsOk, Bool.and_eq_true, Bool.and_true]
    exact ⟨itemOk_bytes _ htob (by omega),
      itemOk_beBytes _ hv,
      itemOk_bytes _ hdb hdata64,
      itemOk_beBytes _ hop256,
      itemOk_beBytes _ hs,
      itemOk_beBytes _ hbg,
      itemOk_beBytes _ hgp,
      itemOk_bytes _ hgtb (by omega),
      itemOk_bytes _ hrrb (by omega)⟩
  simp only [itemOk, Bool.and_eq_true, decide_eq_true_eq]
  refine ⟨h9, ?_⟩
  have l2 := beBytes_length_le_of_lt_2_256 tx.value hv
  have l4 := beBytes_length_le_of_lt_2_256 _ hop256
  have l5 := beBytes_length_le_of_lt_2_256 tx.safeTxGas hs
  have l6 := beBytes_length_le_of_lt_2_256 tx.baseGas hbg
  have l7 := beBytes_length_le_of_lt_2_256 tx.gasPrice hgp
  have e1 := encBytes_length_le tx.to (by omega)
  have e2 := encBytes_length_le (beBytes tx.value) (by omega)
  have e3 := encBytes_length_le tx.data hdata64
  have e4 := encBytes_length_le (beBytes tx.operation.toNat) (by omega)
  have e5 := encBytes_length_le (beBytes tx.safeTxGas) (by omega)
  have e6 := encBytes_length_le (beBytes tx.baseGas) (by omega)
  have e7 := encBytes_length_le (beBytes tx.gasPrice) (by omega)
  have e8 := encBytes_length_le tx.gasToken (by omega)
  have e9 := encBytes_length_le tx.refundReceiver (by omega)
  simp only [safeFields, encodeList, encodeItem, List.append_nil, List.length_append]
  omega

theorem rlpDecode_safeEncode (tx : SafeTransactionParameters) (h : SafeWf tx) :
    rlpDecode (safeEncode tx) = .ok (.list (safeFields tx)) :=
  rlpDecode_encodeItem _ (itemOk_safeFields tx h)

/-- The RLP round trip, specialised to the nine-field Safe payload.  This is
the workhorse behind the C1 and C9 statements. -/
theorem safeDecode_safeEncode (tx : SafeTransactionParameters) (h : SafeWf tx) :
    safeDecode (safeEncode tx) = .ok tx := by
  have hdec := rlpDecode_safeEncode tx h
  obtain ⟨hto, htob, hgt, hgtb, hrr, hrrb, hdb, hdlen, hv, hs, hbg, hgp⟩ := h
  obtain ⟨«to», value, data, operation, safeTxGas, baseGas, gasPrice, gasToken,
    refundReceiver⟩ := tx
  unfold safeDecode
  rw [hdec]
  simp only [safeFields]
  cases operation
  · simp only [Operation.toNat, beBytes_zero]
    simp [asAddress, asBigInt, asBytes, asOperation, hto, hgt, hrr, bytesToNat_beBytes]
  · simp only [Operation.toNat, beBytes_one]
    simp [asAddress, asBigInt, asBytes, asOperation, hto, hgt, hrr, bytesToNat_beBytes]

/-! ## TXE binary envelope codec (`src/txe.ts`, and the copy in `src/index.ts`)

Layout: 2-byte ciphertext length, ciphertext, 12-byte iv, 16-byte tag, 1-byte
recipient count minus one, then per recipient 24 bytes of `encryptedKey`
followed by 32 bytes of `ephemeralPublicKey`.

`DataView.setUint16(offset, v)` (no third argument, as in `src/txe.ts`)
writes big-endian; `setUint16(offset, v, false)` (as in `src/index.ts`)
writes big-endian explicitly.  Both wrap `v` to 16 bits.  `setUint8` wraps to
8 bits.  `Uint8Array.prototype.slice` clamps to the array bounds, and
`DataView.getUint16`/`getUint8` throw exactly when the read would go past the
end of the buffer. -/

structure TXERecipient where
  encryptedKey : List Nat
  ephemeralPublicKey : List Nat
deriving DecidableEq

structure TXE where
  ciphertext : List Nat
  iv : List Nat
  tag : List Nat
  recipients : List TXERecipient
deriving DecidableEq

/-- `isTXE` of `src/txe.ts` (the identical guard also appears in
`src/index.ts`): iv of 12 bytes, tag of 16 bytes, a non-empty recipient list
whose entries have a 24-byte `encryptedKey` and a 32-byte
`ephemeralPublicKey`.  Note that neither the ciphertext length nor the
recipient count is bounded here. -/
def isTXE (t : TXE) : Bool :=
  decide (t.iv.length = 12) && decide (t.tag.length = 16) &&
  decide (t.recipients ≠ []) &&
  t.recipients.all (fun r =>
    decide (r.encryptedKey.length = 24) && decide (r.ephemeralPublicKey.length = 32))

/-- The two bytes written by `DataView.setUint16`: the value is wrapped to 16
bits; big-endian unless `littleEndian` is `true` (the DataView default is
big-endian). -/
def setUint16 (littleEndian : Bool) (v : Nat) : List Nat :=
  if littleEndian then [v % 256, v % 65536 / 256] else [v % 65536 / 256, v % 256]

/-- The value read back by `DataView.getUint16` from two bytes; big-endian
unless `littleEndian` is `true`. -/
def getUint16 (littleEndian : Bool) (b0 b1 : Nat) : Nat :=
  if littleEndian then b1 * 256 + b0 else b0 * 256 + b1

/-- The byte buffer assembled by `encode` of `src/txe.ts` (the cursor writes
the fields back to back; the sizes written always equal the sizes allocated).
The recipient-count byte is the `setUint8` wrap of `recipients.length - 1`. -/
def txeBlob (t : TXE) : List Nat :=
  setUint16 false t.ciphertext.length ++ t.ciphertext ++ t.iv ++ t.tag ++
    [(t.recipients.length - 1) % 256] ++
    (t.recipients.map (fun r => r.encryptedKey ++ r.ephemeralPublicKey)).flatten

/-- `encode` of `src/txe.ts`: validate with `isTXE` (throwing `"invalid
TXE"` otherwise), then pack.  `src/txe.ts` calls `setUint16` without the
byte-order argument, i.e. big-endian. -/
def txeEncode (t : TXE) : Option (List Nat) :=
  if isTXE t then some (txeBlob t) else none

/-- `encode` of `src/index.ts`: identical except that it passes
`littleEndian = false` to `setUint16` explicitly. -/
def txeEncodeIndex (t : TXE) : Option (List Nat) :=
  if isTXE t then
    some (setUint16 false t.ciphertext.length ++ t.ciphertext ++ t.iv ++ t.tag ++
      [(t.recipients.length - 1) % 256] ++
      (t.recipients.map (fun r => r.encryptedKey ++ r.ephemeralPublicKey)).flatten)
  else none

/-- The recipient-reading loop of `decode`: `count` pairs of
`take(24)`/`take(32)` cursor reads (clamped slices). -/
def decodeRecipients : Nat → List Nat → List TXERecipient
  | 0, _ => []
  | k + 1, rem =>
    { encryptedKey := rem.take 24, ephemeralPublicKey := (rem.drop 24).take 32 } ::
      decodeRecipients k (rem.drop 56)

/-- `decode` of `src/txe.ts`: a straight cursor walk.  `getUint16` at offset
0 throws (`none`) when fewer than 2 bytes exist; the `take` slices clamp; the
`getUint8` of the recipient count at offset `30 + L` throws (`none`) exactly
when that offset is past the end, i.e. when `rest.drop (L + 28)` is empty.
No other check is performed: there is no trailing-byte rejection. -/
def txeDecode : List Nat → Option TXE
  | b0 :: b1 :: rest =>
    match (getUint16 false b0 b1 : Nat), rest with
    | L, rest =>
      match rest.drop (L + 28) with
      | c :: rrest =>
        some { ciphertext := rest.take L,
               iv := (rest.drop L).take 12,
               tag := (rest.drop (L + 12)).take 16,
               recipients := decodeRecipients (c + 1) rrest }
      | [] => none
  | _ => none

/-- `decode` of `src/index.ts`: identical except that it passes
`littleEndian = false` to `getUint16` explicitly. -/
def txeDecodeIndex : List Nat → Option TXE
  | b0 :: b1 :: rest =>
    match (getUint16 false b0 b1 : Nat), rest with
    | L, rest =>
      match rest.drop (L + 28) with
      | c :: rrest =>
        some { ciphertext := rest.take L,
               iv := (rest.drop L).take 12,
               tag := (rest.drop (L + 12)).take 16,
               recipients := decodeRecipients (c + 1) rrest }
      | [] => none
  | _ => none

/-- The §3 invariants for a TXE envelope. -/
def TXEWf (t : TXE) : Prop :=
  t.ciphertext.length < 2 ^ 16 ∧ t.iv.length = 12 ∧ t.tag.length = 16 ∧
  t.recipients ≠ [] ∧ t.recipients.length ≤ 256 ∧
  ∀ r ∈ t.recipients, r.encryptedKey.length = 24 ∧ r.ephemeralPublicKey.length = 32

theorem isTXE_of_wf (t : TXE) (h : TXEWf t) : isTXE t = true := by
  obtain ⟨-, hiv, htag, hne, -, hrec⟩ := h
  simp only [isTXE, Bool.and_eq_true, decide_eq_true_eq, List.all_eq_true]
  exact ⟨⟨⟨hiv, htag⟩, hne⟩, hrec⟩

theorem drop_append_exact (a x : List Nat) (n k : Nat) (h : a.length = n) :
    (a ++ x).drop (n + k) = x.drop k := by
  rw [List.drop_append_eq_append_drop]
  rw [List.drop_eq_nil_of_le (by omega), List.nil_append]
  congr 1
  omega

theorem decodeRecipients_flatten (rs : List TXERecipient)
    (h : ∀ r ∈ rs, r.encryptedKey.length = 24 ∧ r.ephemeralPublicKey.length = 32) :
    ∀ (k : Nat) (tail : List Nat),
      decodeRecipients (rs.length + k)
        ((rs.map (fun r => r.encryptedKey ++ r.ephemeralPublicKey)).flatten ++ tail)
      = rs ++ decodeRecipients k tail := by
  induction rs with
  | nil => intro k tail; simp
  | cons r rs ih =>
      intro k tail
      have h24 : r.encryptedKey.length = 24 := (h r (by simp)).1
      have h32 : r.ephemeralPublicKey.length = 32 := (h r (by simp)).2
      have hcount : (r :: rs).length + k = (rs.length + k) + 1 := by simp; omega
      rw [hcount]
      simp only [List.map_cons, List.flatten_cons, List.append_assoc]
      rw [decodeRecipients]
      have hek : (r.encryptedKey ++ (r.ephemeralPublicKey ++
          ((rs.map (fun r => r.encryptedKey ++ r.ephemeralPublicKey)).flatten ++ tail))).take 24
          = r.encryptedKey := List.take_left' h24
      have hdrop24 : (r.encryptedKey ++ (r.ephemeralPublicKey ++
          ((rs.map (fun r => r.encryptedKey ++ r.ephemeralPublicKey)).flatten ++ tail))).drop 24
          = r.ephemeralPublicKey ++
            ((rs.map (fun r => r.encryptedKey ++ r.ephemeralPublicKey)).flatten ++ tail) :=
        List.drop_left' h24
      have hepk : (r.ephemeralPublicKey ++
          ((rs.map (fun r => r.encryptedKey ++ r.ephemeralPublicKey)).flatten ++ tail)).take 32
          = r.ephemeralPublicKey := List.take_left' h32
      have hdrop56 : (r.encryptedKey ++ (r.ephemeralPublicKey ++
          ((rs.map (fun r => r.encryptedKey ++ r.ephemeralPublicKey)).flatten ++ tail))).drop 56
          = (rs.map (fun r => r.encryptedKey ++ r.ephemeralPublicKey)).flatten ++ tail := by
        have e1 : (56 : Nat) = 24 + 32 := by norm_num
        rw [e1, drop_append_exact _ _ _ _ h24]
        have e2 : (32 : Nat) = 32 + 0 := by norm_num
        rw [e2, drop_append_exact _ _ _ _ h32, List.drop_zero]
      rw [hek, hdrop24, hepk, hdrop56]
      rw [ih (fun r hr => h r (by simp [hr])) k tail]
      rfl

/-- The decoder's cursor walk on any buffer shaped like a packed envelope
header: 2-byte big-endian length of `ct`, then `ct`, a 12-byte `iv`, a
16-byte `tag`, a count byte `cnt`, and an arbitrary tail `T` from which
`cnt + 1` recipient records are read. -/
theorem txeDecode_packed (ct iv tag : List Nat) (cnt : Nat) (T : List Nat)
    (hct16 : ct.length < 65536) (hiv : iv.length = 12) (htag : tag.length = 16) :
    txeDecode (setUint16 false ct.length ++ ct ++ iv ++ tag ++ [cnt] ++ T)
      = some { ciphertext := ct, iv := iv, tag := tag,
               recipients := decodeRecipients (cnt + 1) T } := by
  have hshape : setUint16 false ct.length ++ ct ++ iv ++ tag ++ [cnt] ++ T
      = ct.length % 65536 / 256 :: ct.length % 256 ::
        (ct ++ (iv ++ (tag ++ (cnt :: T)))) := by
    simp [setUint16, List.append_assoc]
  have hg : getUint16 false (ct.length % 65536 / 256) (ct.length % 256) = ct.length := by
    simp only [getUint16, if_neg Bool.false_ne_true]
    omega
  rw [hshape]
  simp only [txeDecode]
  rw [hg]
  have hdrop28 : (ct ++ (iv ++ (tag ++ (cnt :: T)))).drop (ct.length + 28) = cnt :: T := by
    rw [drop_append_exact _ _ _ _ rfl]
    have e1 : (28 : Nat) = 12 + 16 := by norm_num
    rw [e1, drop_append_exact _ _ _ _ hiv]
    have e2 : (16 : Nat) = 16 + 0 := by norm_num
    rw [e2, drop_append_exact _ _ _ _ htag, List.drop_zero]
  rw [hdrop28]
  have hct : (ct ++ (iv ++ (tag ++ (cnt :: T)))).take ct.length = ct := List.take_left _ _
  have hivr : ((ct ++ (iv ++ (tag ++ (cnt :: T)))).drop ct.length).take 12 = iv := by
    rw [List.drop_left, List.take_left' hiv]
  have htagr : ((ct ++ (iv ++ (tag ++ (cnt :: T)))).drop (ct.length + 12)).take 16 = tag := by
    rw [drop_append_exact _ _ _ _ rfl]
    have e2 : (12 : Nat) = 12 + 0 := by norm_num
    rw [e2, drop_append_exact _ _ _ _ hiv, List.drop_zero, List.take_left' htag]
  rw [hct, hivr, htagr]

/-- Decoding a packed envelope with arbitrary bytes appended recovers the
envelope: the decoder's cursor walk never looks past the recipients, so
trailing bytes are ignored. -/
theorem txeDecode_txeBlob_append (t : TXE) (h : TXEWf t) (junk : List Nat) :
    txeDecode (txeBlob t ++ junk) = some t := by
  obtain ⟨hlen, hiv, htag, hne, h256, hrec⟩ := h
  have hlen16 : t.ciphertext.length < 65536 := by
    have : (2 : Nat) ^ 16 = 65536 := by norm_num
    omega
  have hshape : txeBlob t ++ junk
      = setUint16 false t.ciphertext.length ++ t.ciphertext ++ t.iv ++ t.tag ++
        [(t.recipients.length - 1) % 256] ++
        ((t.recipients.map (fun r => r.encryptedKey ++ r.ephemeralPublicKey)).flatten
          ++ junk) := by
    simp [txeBlob, List.append_assoc]
  rw [hshape, txeDecode_packed _ _ _ _ _ hlen16 hiv htag]
  have hcnt : (t.recipients.length - 1) % 256 + 1 = t.recipients.length := by
    have hpos : 0 < t.recipients.length := List.length_pos.mpr hne
    have : t.recipients.length - 1 < 256 := by omega
    rw [Nat.mod_eq_of_lt this]
    omega
  have hrecs : decodeRecipients ((t.recipients.length - 1) % 256 + 1)
      ((t.recipients.map (fun r => r.encryptedKey ++ r.ephemeralPublicKey)).flatten ++ junk)
      = t.recipients := by
    rw [hcnt]
    have := decodeRecipients_flatten t.recipients hrec 0 junk
    rw [Nat.add_zero] at this
    rw [this]
    simp [decodeRecipients]
  rw [hrecs]

/-- Decoding the exact packed envelope (no trailing bytes). -/
theorem txeDecode_txeBlob (t : TXE) (h : TXEWf t) :
    txeDecode (txeBlob t) = some t := by
  have := txeDecode_txeBlob_append t h []
  rwa [List.append_nil] at this

theorem decodeRecipients_length (k : Nat) : ∀ rem, (decodeRecipients k rem).length = k := by
  induction k with
  | zero => intro rem; rfl
  | succ k ih => intro rem; simp [decodeRecipients, ih]

/-- Dropping the last byte of a packed envelope removes the last byte of the
final recipient's `ephemeralPublicKey`. -/
theorem txeBlob_dropLast (t : TXE) (rs : List TXERecipient) (r : TXERecipient)
    (hsplit : t.recipients = rs ++ [r]) (hepk : r.ephemeralPublicKey ≠ []) :
    (txeBlob t).dropLast
      = setUint16 false t.ciphertext.length ++ t.ciphertext ++ t.iv ++ t.tag ++
        [(t.recipients.length - 1) % 256] ++
        ((rs.map (fun x => x.encryptedKey ++ x.ephemeralPublicKey)).flatten ++
          (r.encryptedKey ++ r.ephemeralPublicKey.dropLast)) := by
  have hflat : (t.recipients.map (fun x => x.encryptedKey ++ x.ephemeralPublicKey)).flatten
      = (rs.map (fun x => x.encryptedKey ++ x.ephemeralPublicKey)).flatten ++
        (r.encryptedKey ++ r.ephemeralPublicKey) := by
    rw [hsplit]
    simp
  have hre : txeBlob t
      = (setUint16 false t.ciphertext.length ++ t.ciphertext ++ t.iv ++ t.tag ++
          [(t.recipients.length - 1) % 256] ++
          (rs.map (fun x => x.encryptedKey ++ x.ephemeralPublicKey)).flatten ++
          r.encryptedKey) ++ r.ephemeralPublicKey := by
    rw [txeBlob, hflat]
    simp [List.append_assoc]
  rw [hre, List.dropLast_append_of_ne_nil _ hepk]
  simp [List.append_assoc]

/-- Decoding a packed envelope whose last byte was removed still succeeds;
the result has the final `ephemeralPublicKey` truncated to 31 bytes and is
otherwise unchanged. -/
theorem txeDecode_txeBlob_dropLast (t : TXE) (rs : List TXERecipient) (r : TXERecipient)
    (hsplit : t.recipients = rs ++ [r]) (h : TXEWf t) :
    txeDecode ((txeBlob t).dropLast)
      = some { ciphertext := t.ciphertext, iv := t.iv, tag := t.tag,
               recipients := rs ++ [⟨r.encryptedKey, r.ephemeralPublicKey.dropLast⟩] } := by
  obtain ⟨hlen, hiv, htag, hne, h256, hrec⟩ := h
  have hlen16 : t.ciphertext.length < 65536 := by
    have : (2 : Nat) ^ 16 = 65536 := by norm_num
    omega
  have h24 : r.encryptedKey.length = 24 := (hrec r (by simp [hsplit])).1
  have h32 : r.ephemeralPublicKey.length = 32 := (hrec r (by simp [hsplit])).2
  have hepk : r.ephemeralPublicKey ≠ [] := by
    intro hc
    rw [hc] at h32
    simp at h32
  rw [txeBlob_dropLast t rs r hsplit hepk]
  rw [txeDecode_packed _ _ _ _ _ hlen16 hiv htag]
  have hcnt : (t.recipients.length - 1) % 256 + 1 = rs.length + 1 := by
    have hlenr : t.recipients.length = rs.length + 1 := by rw [hsplit]; simp
    rw [hlenr]
    have : rs.length < 256 := by omega
    simp [Nat.mod_eq_of_lt this]
  rw [hcnt]
  have hrest := decodeRecipients_flatten rs
    (fun x hx => hrec x (by simp [hsplit, hx])) 1
    (r.encryptedKey ++ r.ephemeralPublicKey.dropLast)
  rw [hrest]
  have hone : decodeRecipients 1 (r.encryptedKey ++ r.ephemeralPublicKey.dropLast)
      = [⟨r.encryptedKey, r.ephemeralPublicKey.dropLast⟩] := by
    simp only [decodeRecipients]
    rw [List.take_left' h24, List.drop_left' h24]
    rw [List.take_of_length_le (by rw [List.length_dropLast]; omega)]
  rw [hone]

/-- Whenever `decode` of `src/txe.ts` returns an envelope on a genuine byte
array, the recipient count is an input byte plus one. -/
theorem txeDecode_recipients_count (data : List Nat) (E : TXE)
    (hdec : txeDecode data = some E) :
    1 ≤ E.recipients.length ∧
      ((∀ b ∈ data, b < 256) → E.recipients.length ≤ 256) := by
  match data with
  | [] => simp [txeDecode] at hdec
  | [b0] => simp [txeDecode] at hdec
  | b0 :: b1 :: rest =>
    simp only [txeDecode] at hdec
    cases hdrop : rest.drop (getUint16 false b0 b1 + 28) with
    | nil =>
        rw [hdrop] at hdec
        simp at hdec
    | cons c rrest =>
        rw [hdrop] at hdec
        simp only [Option.some.injEq] at hdec
        have hrecs : E.recipients = decodeRecipients (c + 1) rrest := by
          rw [← hdec]
        have hlen : E.recipients.length = c + 1 := by
          rw [hrecs, decodeRecipients_length]
        constructor
        · omega
        · intro hbytes
          have h1 : c ∈ rest.drop (getUint16 false b0 b1 + 28) := by
            rw [hdrop]
            exact List.mem_cons_self c rrest
          have hc : c ∈ b0 :: b1 :: rest :=
            List.mem_cons_of_mem _ (List.mem_cons_of_mem _ (List.mem_of_mem_drop h1))
          have := hbytes c hc
          omega

/-- The length stored in the first two bytes is read back big-endian: the
ciphertext slice of any successful decode has its length determined by
`b0 * 256 + b1`. -/
theorem txeDecode_ciphertext_read (b0 b1 : Nat) (rest : List Nat) (E : TXE)
    (h : txeDecode (b0 :: b1 :: rest) = some E) :
    E.ciphertext = rest.take (b0 * 256 + b1) := by
  simp only [txeDecode] at h
  cases hdrop : rest.drop (getUint16 false b0 b1 + 28) with
  | nil =>
      rw [hdrop] at h
      simp at h
  | cons c rrest =>
      rw [hdrop] at h
      simp only [Option.some.injEq] at h
      rw [← h]
      simp [getUint16]

/-! ## Circuit input assembly (`extract` / `conceal` of the circuit module)

The `extract({nonce, structHash, blob})` entry point validates the
commitment, decodes the blob with the TXE decoder, and builds an `Input`
whose private half holds zero-filled placeholders of the correct shapes
(the Ligero backend requires sizes, not values, to match at verification
time). -/

structure PublicInput where
  structHash : List Nat
  nonce : Int
  ciphertext : List Nat
  iv : List Nat
  tag : List Nat
  recipients : List TXERecipient
deriving DecidableEq

structure PrivateRecipient where
  publicKey : List Nat
  ephemeralPrivateKey : List Nat
deriving DecidableEq

structure PrivateInput where
  transaction : List Nat
  contentEncryptionKey : List Nat
  recipients : List PrivateRecipient
deriving DecidableEq

structure Input where
  «public» : PublicInput
  «private» : PrivateInput
deriving DecidableEq

/-- Errors thrown by `extract`: `"invalid struct hash"`, `"invalid nonce"`,
and the RangeError that `decode` raises on a blob too short for its fixed
header reads. -/
inductive ExtractError where
  | invalidStructHash : ExtractError
  | invalidNonce : ExtractError
  | decodeFailed : ExtractError
deriving DecidableEq

/-- `conceal` of the circuit module: keep the public half, zero-fill the
private half with the matching shapes. -/
def conceal (pub : PublicInput) : Input :=
  { «public» := pub,
    «private» := {
      transaction := List.replicate pub.ciphertext.length 0,
      contentEncryptionKey := List.replicate 16 0,
      recipients := pub.recipients.map
        (fun _ => ⟨List.replicate 32 0, List.replicate 32 0⟩) } }

/-- `MAX_UINT = (1n << 256n) - 1n`. -/
def MAX_UINT : Int := 2 ^ 256 - 1

/-- `extract` of the circuit module. -/
def extract (structHash : List Nat) (nonce : Int) (blob : List Nat) :
    Except ExtractError Input :=
  if structHash.length ≠ 32 then .error .invalidStructHash
  else if nonce < 0 ∨ nonce > MAX_UINT then .error .invalidNonce
  else
    match txeDecode blob with
    | none => .error .decodeFailed
    | some t =>
      .ok (conceal { structHash := structHash, nonce := nonce,
                     ciphertext := t.ciphertext, iv := t.iv, tag := t.tag,
                     recipients := t.recipients })

/-! ## Inversion lemmas for the Safe field converters -/

theorem asAddress_ok (v : RItem) (a : List Nat) (h : asAddress v = .ok a) :
    v = .bytes a ∧ a.length = 20 := by
  cases v with
  | bytes s =>
      simp only [asAddress] at h
      split at h
      · simp only [Except.ok.injEq] at h
        subst h
        constructor
        · rfl
        · assumption
      · cases h
  | list items => cases h

theorem asBytes_ok (v : RItem) (a : List Nat) (h : asBytes v = .ok a) :
    v = .bytes a := by
  cases v with
  | bytes s =>
      simp only [asBytes, Except.ok.injEq] at h
      subst h
      rfl
  | list items => cases h

theorem asBigInt_ok (v : RItem) (n : Nat) (h : asBigInt v = .ok n) :
    ∃ s, v = .bytes s ∧ n = bytesToNat s := by
  cases v with
  | bytes s =>
      simp only [asBigInt, Except.ok.injEq] at h
      exact ⟨s, rfl, h.symm⟩
  | list items => cases h

theorem asOperation_ok (v : RItem) (op : Operation) (h : asOperation v = .ok op) :
    (v = .bytes [] ∧ op = .CALL) ∨ (v = .bytes [1] ∧ op = .DELEGATECALL) := by
  cases v with
  | bytes s =>
      simp only [asOperation] at h
      split at h
      · rename_i hs
        simp only [Except.ok.injEq] at h
        exact Or.inl ⟨by rw [hs], h.symm⟩
      · split at h
        · rename_i hs
          simp only [Except.ok.injEq] at h
          exact Or.inr ⟨by rw [hs], h.symm⟩
        · cases h
  | list items => cases h

theorem asOperation_error (v : RItem) (h1 : v ≠ .bytes []) (h2 : v ≠ .bytes [1]) :
    asOperation v = .error .fieldTypeMismatch := by
  cases v with
  | bytes s =>
      have hs1 : s ≠ [] := fun hc => h1 (by rw [hc])
      have hs2 : s ≠ [1] := fun hc => h2 (by rw [hc])
      simp [asOperation, hs1, hs2]
  | list items => rfl

theorem beBytes_small (n : Nat) (h0 : n ≠ 0) (h : n < 256) : beBytes n = [n] := by
  rw [beBytes_pos n h0, Nat.div_eq_of_lt h, beBytes_zero, Nat.mod_eq_of_lt h]
  rfl

theorem setUint16_length (le : Bool) (v : Nat) : (setUint16 le v).length = 2 := by
  unfold setUint16
  split <;> rfl

/-- Whenever `decode` of `src/safe.ts` succeeds, the top-level RLP item was a
nine-element list, the three address fields were 20-byte byte strings, and
the operation field was `0x` (→ `CALL`) or `0x01` (→ `DELEGATECALL`). -/
theorem safeDecode_ok_inv (encoded : List Nat) (tx : SafeTransactionParameters)
    (h : safeDecode encoded = .ok tx) :
    ∃ fields : List RItem,
      rlpDecode encoded = .ok (.list fields) ∧
      fields.length = 9 ∧
      fields.get? 0 = some (.bytes tx.to) ∧ tx.to.length = 20 ∧
      fields.get? 7 = some (.bytes tx.gasToken) ∧ tx.gasToken.length = 20 ∧
      fields.get? 8 = some (.bytes tx.refundReceiver) ∧ tx.refundReceiver.length = 20 ∧
      ((fields.get? 3 = some (.bytes []) ∧ tx.operation = .CALL) ∨
       (fields.get? 3 = some (.bytes [1]) ∧ tx.operation = .DELEGATECALL)) := by
  unfold safeDecode at h
  split at h
  · exact Except.noConfusion h
  · exact Except.noConfusion h
  · rename_i fields hrlp
    split at h
    · rename_i f0 f1 f2 f3 f4 f5 f6 f7 f8
      split at h
      · exact Except.noConfusion h
      · rename_i a0 h0
        split at h
        · exact Except.noConfusion h
        · rename_i a1 h1
          split at h
          · exact Except.noConfusion h
          · rename_i a2 h2
            split at h
            · exact Except.noConfusion h
            · rename_i a3 h3
              split at h
              · exact Except.noConfusion h
              · rename_i a4 h4
                split at h
                · exact Except.noConfusion h
                · rename_i a5 h5
                  split at h
                  · exact Except.noConfusion h
                  · rename_i a6 h6
                    split at h
                    · exact Except.noConfusion h
                    · rename_i a7 h7
                      split at h
                      · exact Except.noConfusion h
                      · rename_i a8 h8
                        simp only [Except.ok.injEq] at h
                        subst h
                        obtain ⟨hf0, hl0⟩ := asAddress_ok _ _ h0
                        obtain ⟨hf7, hl7⟩ := asAddress_ok _ _ h7
                        obtain ⟨hf8, hl8⟩ := asAddress_ok _ _ h8
                        have hop := asOperation_ok _ _ h3
                        refine ⟨[f0, f1, f2, f3, f4, f5, f6, f7, f8], hrlp, rfl,
                          ?_, hl0, ?_, hl7, ?_, hl8, ?_⟩
                        · simp [hf0]
                        · simp [hf7]
                        · simp [hf8]
                        · rcases hop with ⟨hf3, hopv⟩ | ⟨hf3, hopv⟩
                          · exact Or.inl ⟨by simp [hf3], hopv⟩
                          · exact Or.inr ⟨by simp [hf3], hopv⟩
    · exact Except.noConfusion h

/-! ## Fixtures: the concrete transaction of the repository's test suite and
a small concrete envelope, used to instantiate the quantified theorems. -/

def tx0 : SafeTransactionParameters :=
  { «to» := List.replicate 20 0xa1, value := 2, data := [0x03, 0x04, 0x05, 0x06],
    operation := .DELEGATECALL, safeTxGas := 7, baseGas := 8, gasPrice := 9,
    gasToken := List.replicate 20 0xa2, refundReceiver := List.replicate 20 0xa3 }

theorem tx0_wf : SafeWf tx0 := by
  unfold SafeWf
  decide

def txe0 : TXE :=
  { ciphertext := [0x61, 0x62, 0x63], iv := List.replicate 12 1,
    tag := List.replicate 16 2,
    recipients := [⟨List.replicate 24 3, List.replicate 32 4⟩] }

theorem txe0_wf : TXEWf txe0 := by
  unfold TXEWf
  decide

/-! ## The claims -/

/-- C1: for every Safe transaction parameter record satisfying the §3 data
model (20-byte addresses, integers `≤ 2^256 − 1`, arbitrary byte-string
`data`, operation `CALL`/`DELEGATECALL`, nonce excluded),
`decode(encode(T)) == T`, where `encode` serialises the nine fields in the
fixed order as an RLP list. -/
theorem C1_safe_rlp_roundtrip (tx : SafeTransactionParameters) (h : SafeWf tx) :
    safeDecode (safeEncode tx) = .ok tx :=
  safeDecode_safeEncode tx h

theorem C1_safe_rlp_roundtrip_witness :
    SafeWf tx0 ∧ safeDecode (safeEncode tx0) = .ok tx0 :=
  ⟨tx0_wf, C1_safe_rlp_roundtrip tx0 tx0_wf⟩

/-- C2: for every TXE envelope satisfying the §3 invariants (12-byte iv,
16-byte tag, 24-byte encrypted keys, 32-byte ephemeral public keys, 1 to 256
recipients, ciphertext shorter than `2^16`), the binary codec satisfies
`decode(encode(E)) == E`. -/
theorem C2_txe_roundtrip (t : TXE) (h : TXEWf t) :
    ∃ blob, txeEncode t = some blob ∧ txeDecode blob = some t :=
  ⟨txeBlob t,
   by unfold txeEncode; rw [if_pos (isTXE_of_wf t h)],
   txeDecode_txeBlob t h⟩

theorem C2_txe_roundtrip_witness :
    TXEWf txe0 ∧ ∃ blob, txeEncode txe0 = some blob ∧ txeDecode blob = some txe0 :=
  ⟨txe0_wf, C2_txe_roundtrip txe0 txe0_wf⟩

/-- C3, counterexample: the claim states that decoding `encode(E)` with one
extra trailing byte fails with `TrailingBytes` and decoding with the last
byte removed fails with `Truncated`, returning no envelope in either case.
On the concrete well-formed envelope `txe0`, both decodes succeed: the
decoder performs no trailing-byte or truncation check. -/
theorem C3_counterexample :
    txeEncode txe0 = some (txeBlob txe0) ∧
    txeDecode (txeBlob txe0 ++ [0x7b]) = some txe0 ∧
    (txeDecode ((txeBlob txe0).dropLast)).isSome = true := by
  decide

/-- C3, amended: decoding `encode(E)` with extra trailing bytes appended
succeeds and returns `E` unchanged (trailing bytes are ignored), and decoding
`encode(E)` with the last byte removed succeeds, returning an envelope that
differs from `E` only in that the final recipient's `ephemeralPublicKey` has
its last byte missing (31 bytes instead of 32). -/
theorem C3_amended_no_trailing_or_truncation_check (t : TXE) (h : TXEWf t) :
    txeEncode t = some (txeBlob t) ∧
    (∀ junk, txeDecode (txeBlob t ++ junk) = some t) ∧
    (∀ rs r, t.recipients = rs ++ [r] →
      txeDecode ((txeBlob t).dropLast)
        = some { ciphertext := t.ciphertext, iv := t.iv, tag := t.tag,
                 recipients := rs ++ [⟨r.encryptedKey, r.ephemeralPublicKey.dropLast⟩] }) :=
  ⟨by unfold txeEncode; rw [if_pos (isTXE_of_wf t h)],
   fun junk => txeDecode_txeBlob_append t h junk,
   fun rs r hsplit => txeDecode_txeBlob_dropLast t rs r hsplit h⟩

theorem C3_amended_witness :
    TXEWf txe0 ∧
    txeDecode (txeBlob txe0 ++ [0x7b]) = some txe0 ∧
    txeDecode ((txeBlob txe0).dropLast)
      = some { ciphertext := txe0.ciphertext, iv := txe0.iv, tag := txe0.tag,
               recipients := [] ++ [⟨(List.replicate 24 3 : List Nat),
                 (List.replicate 32 4 : List Nat).dropLast⟩] } :=
  ⟨txe0_wf,
   (C3_amended_no_trailing_or_truncation_check txe0 txe0_wf).2.1 [0x7b],
   (C3_amended_no_trailing_or_truncation_check txe0 txe0_wf).2.2 []
     ⟨List.replicate 24 3, List.replicate 32 4⟩ rfl⟩

/-- C4: the RLP decoder accepts a length prefix whose declared size overruns
the input and silently truncates the payload: on input `0x8201` (a two-byte
string declared, only one byte present) it returns the byte string `0x01`
instead of failing.  The `catch` block in `prefixedLength` of `src/rlp.ts`
that is meant to raise `"invalid length prefix"` is unreachable, because
JavaScript `slice` clamps instead of throwing. -/
theorem C4_truncated_payload_accepted :
    rlpDecode [0x82, 0x01] = .ok (.bytes [0x01]) := by
  unfold rlpDecode
  rw [rlpNext_mid 0x82 [0x01] (by norm_num) (by norm_num)]
  simp [prefixedLength]

theorem all_replicate {α : Type} (n : Nat) (a : α) (p : α → Bool) (h : p a = true) :
    (List.replicate n a).all p = true := by
  induction n with
  | zero => rfl
  | succ n ih => simp [List.replicate_succ, h, ih]

theorem txeBlob_take2 (t : TXE) :
    (txeBlob t).take 2
      = [t.ciphertext.length % 65536 / 256, t.ciphertext.length % 256] := by
  have hre : txeBlob t = setUint16 false t.ciphertext.length ++
      (t.ciphertext ++ (t.iv ++ (t.tag ++ ((t.recipients.length - 1) % 256 ::
        (t.recipients.map (fun r => r.encryptedKey ++ r.ephemeralPublicKey)).flatten)))) := by
    simp [txeBlob, List.append_assoc]
  rw [hre, List.take_left' (setUint16_length false _)]
  simp [setUint16]

theorem txeBlob_countByte (t : TXE) (hiv : t.iv.length = 12) (htag : t.tag.length = 16) :
    ((txeBlob t).drop (30 + t.ciphertext.length)).take 1
      = [(t.recipients.length - 1) % 256] := by
  have hre : txeBlob t = setUint16 false t.ciphertext.length ++
      (t.ciphertext ++ (t.iv ++ (t.tag ++ ((t.recipients.length - 1) % 256 ::
        (t.recipients.map (fun r => r.encryptedKey ++ r.ephemeralPublicKey)).flatten)))) := by
    simp [txeBlob, List.append_assoc]
  have hoff : 30 + t.ciphertext.length = 2 + (t.ciphertext.length + 28) := by omega
  rw [hre, hoff, drop_append_exact _ _ _ _ (setUint16_length false _)]
  rw [drop_append_exact _ _ _ _ rfl]
  have e1 : (28 : Nat) = 12 + 16 := by norm_num
  rw [e1, drop_append_exact _ _ _ _ hiv]
  have e2 : (16 : Nat) = 16 + 0 := by norm_num
  rw [e2, drop_append_exact _ _ _ _ htag, List.drop_zero]
  rfl

theorem isTXE_parts (t : TXE) (h : isTXE t = true) :
    t.iv.length = 12 ∧ t.tag.length = 16 ∧ t.recipients ≠ [] := by
  simp only [isTXE, Bool.and_eq_true, decide_eq_true_eq] at h
  exact ⟨h.1.1.1, h.1.1.2, h.1.2⟩

def txeBig : TXE :=
  { ciphertext := List.replicate 65536 0, iv := List.replicate 12 0,
    tag := List.replicate 16 0,
    recipients := [⟨List.replicate 24 0, List.replicate 32 0⟩] }

def txeMany : TXE :=
  { ciphertext := [], iv := List.replicate 12 0, tag := List.replicate 16 0,
    recipients := List.replicate 257 ⟨List.replicate 24 0, List.replicate 32 0⟩ }

/-- C5, counterexample: the claim states that TXE encoding fails with
`LengthOverflow` when the ciphertext has at least `2^16` bytes and with
`TooManyRecipients` when there are more than 256 recipients.  On a
`2^16`-byte ciphertext (`txeBig`) and on 257 recipients (`txeMany`), `encode`
succeeds: `isTXE` checks neither bound, and no such error exists in the
codec. -/
theorem C5_counterexample :
    txeBig.ciphertext.length = 2 ^ 16 ∧ (txeEncode txeBig).isSome = true ∧
    txeMany.recipients.length = 257 ∧ (txeEncode txeMany).isSome = true := by
  have hbig : isTXE txeBig = true := by
    have hiv : txeBig.iv = List.replicate 12 0 := rfl
    have htag : txeBig.tag = List.replicate 16 0 := rfl
    have hrec : txeBig.recipients = [⟨List.replicate 24 0, List.replicate 32 0⟩] := rfl
    simp only [isTXE]
    rw [hiv, htag, hrec]
    decide
  have hmany : isTXE txeMany = true := by
    have hiv : txeMany.iv = List.replicate 12 0 := rfl
    have htag : txeMany.tag = List.replicate 16 0 := rfl
    have hrec : txeMany.recipients
        = List.replicate 257 ⟨List.replicate 24 0, List.replicate 32 0⟩ := rfl
    simp only [isTXE]
    rw [hiv, htag, hrec]
    simp only [Bool.and_eq_true, decide_eq_true_eq]
    refine ⟨⟨⟨by decide, by decide⟩, ?_⟩, ?_⟩
    · exact List.ne_nil_of_length_pos (by rw [List.length_replicate]; norm_num)
    · exact all_replicate 257 _ _ (by decide)
  have hlenBig : txeBig.ciphertext.length = 2 ^ 16 := by
    have : txeBig.ciphertext = List.replicate 65536 0 := rfl
    rw [this, List.length_replicate]
    norm_num
  have hlenMany : txeMany.recipients.length = 257 := by
    have : txeMany.recipients
        = List.replicate 257 ⟨List.replicate 24 0, List.replicate 32 0⟩ := rfl
    rw [this, List.length_replicate]
  refine ⟨hlenBig, ?_, hlenMany, ?_⟩
  · unfold txeEncode
    rw [if_pos hbig]
    rfl
  · unfold txeEncode
    rw [if_pos hmany]
    rfl

/-- C5, amended: `encode` validates only the shape checks of `isTXE`
(12-byte iv, 16-byte tag, at least one recipient, 24/32-byte keys); it does
not reject an oversized ciphertext or more than 256 recipients.  On any
`isTXE`-valid envelope it succeeds, storing `|ciphertext| mod 2^16`
big-endian in the 2-byte length field and `(N − 1) mod 256` in the count
byte. -/
theorem C5_amended_encode_wraps_instead_of_failing (t : TXE) (h : isTXE t = true) :
    txeEncode t = some (txeBlob t) ∧
    (txeBlob t).take 2
      = [t.ciphertext.length % 65536 / 256, t.ciphertext.length % 256] ∧
    ((txeBlob t).drop (30 + t.ciphertext.length)).take 1
      = [(t.recipients.length - 1) % 256] := by
  obtain ⟨hiv, htag, -⟩ := isTXE_parts t h
  exact ⟨by rw [txeEncode, if_pos h],
    txeBlob_take2 t, txeBlob_countByte t hiv htag⟩

theorem C5_amended_witness :
    isTXE txe0 = true ∧
    txeEncode txe0 = some (txeBlob txe0) ∧
    (txeBlob txe0).take 2
      = [txe0.ciphertext.length % 65536 / 256, txe0.ciphertext.length % 256] ∧
    ((txeBlob txe0).drop (30 + txe0.ciphertext.length)).take 1
      = [(txe0.recipients.length - 1) % 256] :=
  ⟨by decide, C5_amended_encode_wraps_instead_of_failing txe0 (by decide)⟩

/-- C6: in both the `src/txe.ts` and `src/index.ts` code paths the 2-byte
ciphertext length at offset 0 is written and read as a big-endian unsigned
16-bit integer (the `DataView` default byte order equals the explicitly
requested `littleEndian = false`), so the two paths agree with each other and
with the fixed byte order: the first blob byte is the high length byte, and a
successful decode slices the ciphertext using `b0 * 256 + b1`. -/
theorem C6_length_prefix_big_endian :
    (∀ t, txeEncodeIndex t = txeEncode t) ∧
    (∀ d, txeDecodeIndex d = txeDecode d) ∧
    (∀ t : TXE, t.ciphertext.length < 2 ^ 16 →
      (txeBlob t).take 2
        = [t.ciphertext.length / 256, t.ciphertext.length % 256]) ∧
    (∀ b0 b1 rest (E : TXE), txeDecode (b0 :: b1 :: rest) = some E →
      E.ciphertext = rest.take (b0 * 256 + b1)) := by
  refine ⟨fun t => rfl, ?_, ?_, txeDecode_ciphertext_read⟩
  · intro d
    match d with
    | [] => rfl
    | [b0] => rfl
    | b0 :: b1 :: rest => rfl
  · intro t hlt
    rw [txeBlob_take2 t]
    have : t.ciphertext.length % 65536 = t.ciphertext.length := by
      apply Nat.mod_eq_of_lt
      have : (2 : Nat) ^ 16 = 65536 := by norm_num
      omega
    rw [this]

theorem C6_length_prefix_big_endian_witness :
    txe0.ciphertext.length < 2 ^ 16 ∧
    (txeBlob txe0).take 2 = [txe0.ciphertext.length / 256, txe0.ciphertext.length % 256] ∧
    txeDecode (txeBlob txe0) = some txe0 ∧
    txe0.ciphertext = ((txeBlob txe0).drop 2).take (0 * 256 + 3) :=
  ⟨by decide,
   C6_length_prefix_big_endian.2.2.1 txe0 (by decide),
   txeDecode_txeBlob txe0 txe0_wf,
   C6_length_prefix_big_endian.2.2.2 0 3 ((txeBlob txe0).drop 2) txe0 (by decide)⟩

/-- C7: `extract` fails with `InvalidStructHash` when the struct hash is not
32 bytes and with `InvalidNonce` when the nonce is negative or at least
`2^256`; otherwise (when the blob decodes) it returns an `Input` whose public
half carries the struct hash, nonce and decoded envelope fields and whose
private half is zero-filled with shapes `|transaction| = |ciphertext|`,
`|contentEncryptionKey| = 16`, and one 32/32-byte
`(publicKey, ephemeralPrivateKey)` pair per public-input recipient. -/
theorem C7_extract_validates_and_zero_fills :
    (∀ sh (n : Int) blob, sh.length ≠ 32 →
      extract sh n blob = .error .invalidStructHash) ∧
    (∀ sh (n : Int) blob, sh.length = 32 → (n < 0 ∨ n > MAX_UINT) →
      extract sh n blob = .error .invalidNonce) ∧
    (∀ sh (n : Int) blob t, sh.length = 32 → 0 ≤ n → n ≤ MAX_UINT →
      txeDecode blob = some t →
      extract sh n blob = .ok {
        «public» := { structHash := sh, nonce := n, ciphertext := t.ciphertext,
                      iv := t.iv, tag := t.tag, recipients := t.recipients },
        «private» := { transaction := List.replicate t.ciphertext.length 0,
                       contentEncryptionKey := List.replicate 16 0,
                       recipients := t.recipients.map
                         (fun _ => ⟨List.replicate 32 0, List.replicate 32 0⟩) } }) := by
  refine ⟨?_, ?_, ?_⟩
  · intro sh n blob hsh
    unfold extract
    rw [if_pos hsh]
  · intro sh n blob hsh hn
    unfold extract
    rw [if_neg (by simp [hsh]), if_pos hn]
  · intro sh n blob t hsh hn0 hnM hdec
    unfold extract
    rw [if_neg (by simp [hsh]),
      if_neg (by
        rintro (hc | hc)
        · omega
        · exact absurd hc (not_lt.mpr hnM))]
    rw [hdec]
    rfl

theorem C7_extract_witness :
    extract (List.replicate 33 0) 0 [] = .error .invalidStructHash ∧
    extract (List.replicate 32 0) (-1) [] = .error .invalidNonce ∧
    extract (List.replicate 32 0) 5 (txeBlob txe0) = .ok {
      «public» := { structHash := List.replicate 32 0, nonce := 5,
                    ciphertext := txe0.ciphertext, iv := txe0.iv, tag := txe0.tag,
                    recipients := txe0.recipients },
      «private» := { transaction := List.replicate txe0.ciphertext.length 0,
                     contentEncryptionKey := List.replicate 16 0,
                     recipients := txe0.recipients.map
                       (fun _ => ⟨List.replicate 32 0, List.replicate 32 0⟩) } } :=
  ⟨C7_extract_validates_and_zero_fills.1 (List.replicate 33 0) 0 [] (by decide),
   C7_extract_validates_and_zero_fills.2.1 (List.replicate 32 0) (-1) []
     (by decide) (Or.inl (by norm_num)),
   C7_extract_validates_and_zero_fills.2.2 (List.replicate 32 0) 5 (txeBlob txe0) txe0
     (by decide) (by norm_num) (by unfold MAX_UINT; norm_num)
     (txeDecode_txeBlob txe0 txe0_wf)⟩

/-- C8: the RLP encoder maps a single byte `< 0x80` to itself; maps the
integer zero to the empty byte string, emitted as the single byte `0x80`;
and encodes every non-negative integer as its minimal big-endian byte string
(value-preserving, no leading zero byte, no shorter byte representation)
under the byte-string prefix rules (prefix `0x80 + L` for `L < 56`). -/
theorem C8_rlp_integer_encoding :
    (∀ b : Nat, b < 0x80 → encBytes [b] = [b]) ∧
    encNat 0 = [0x80] ∧
    (∀ n : Nat, bytesToNat (beBytes n) = n ∧
      (∀ b l, beBytes n = b :: l → b ≠ 0) ∧
      (∀ l, (∀ b ∈ l, b < 256) → bytesToNat l = n → (beBytes n).length ≤ l.length)) ∧
    (∀ n : Nat, 0 < n → n < 0x80 → encNat n = [n]) ∧
    (∀ n : Nat, 0x80 ≤ n → (beBytes n).length < 56 →
      encNat n = (0x80 + (beBytes n).length) :: beBytes n) := by
  refine ⟨?_, ?_, ?_, ?_, ?_⟩
  · intro b hb
    simp [encBytes, hb]
  · simp [encNat, beBytes_zero, encBytes, lengthPrefix]
  · intro n
    exact ⟨bytesToNat_beBytes n, beBytes_head_ne_zero n,
      fun l hb hv => beBytes_length_minimal n l hb hv⟩
  · intro n h0 hlt
    unfold encNat
    rw [beBytes_small n (by omega) (by omega)]
    simp [encBytes, hlt]
  · intro n hge hlen
    unfold encNat
    rcases hbe : beBytes n with _ | ⟨b, tl⟩
    · exact absurd ((beBytes_eq_nil_iff n).mp hbe) (by omega)
    · rcases tl with _ | ⟨c, cs⟩
      · have hb : b = n := by
          have hv := bytesToNat_beBytes n
          rw [hbe, bytesToNat_singleton] at hv
          exact hv
        subst hb
        simp only [encBytes]
        rw [if_neg (by omega)]
        simp [lengthPrefix]
      · rw [hbe] at hlen
        simp only [encBytes, lengthPrefix]
        rw [if_pos (by simpa using hlen)]

theorem C8_rlp_integer_encoding_witness :
    encBytes [0x05] = [0x05] ∧
    encNat 0 = [0x80] ∧
    bytesToNat (beBytes 1000) = 1000 ∧
    (beBytes 7).length ≤ ([0, 7] : List Nat).length ∧
    encNat 5 = [5] ∧
    encNat 0x80 = (0x80 + (beBytes 0x80).length) :: beBytes 0x80 :=
  ⟨C8_rlp_integer_encoding.1 0x05 (by norm_num),
   C8_rlp_integer_encoding.2.1,
   (C8_rlp_integer_encoding.2.2.1 1000).1,
   (C8_rlp_integer_encoding.2.2.1 7).2.2 [0, 7] (by decide) (by decide),
   C8_rlp_integer_encoding.2.2.2.1 5 (by norm_num) (by norm_num),
   C8_rlp_integer_encoding.2.2.2.2 0x80 (by norm_num)
     (by rw [beBytes_small 0x80 (by norm_num) (by norm_num)]; norm_num)⟩

/-- C9: `decode` of the Safe codec fails unless the top-level RLP item is a
list of exactly nine elements; each expected-address field (`to`,
`gasToken`, `refundReceiver`) must be exactly 20 bytes; and the operation
field must be the empty byte string `0x` (decoded as `CALL`) or `0x01`
(decoded as `DELEGATECALL`) — any other operation value fails with the
field-type-mismatch error. -/
theorem C9_safe_decode_shape :
    (∀ (encoded : List Nat) (tx : SafeTransactionParameters),
      safeDecode encoded = .ok tx →
      ∃ fields : List RItem,
        rlpDecode encoded = .ok (.list fields) ∧
        fields.length = 9 ∧
        fields.get? 0 = some (.bytes tx.to) ∧ tx.to.length = 20 ∧
        fields.get? 7 = some (.bytes tx.gasToken) ∧ tx.gasToken.length = 20 ∧
        fields.get? 8 = some (.bytes tx.refundReceiver) ∧ tx.refundReceiver.length = 20 ∧
        ((fields.get? 3 = some (.bytes []) ∧ tx.operation = .CALL) ∨
         (fields.get? 3 = some (.bytes [1]) ∧ tx.operation = .DELEGATECALL))) ∧
    (∀ v : RItem, v ≠ .bytes [] → v ≠ .bytes [1] →
      asOperation v = .error .fieldTypeMismatch) :=
  ⟨safeDecode_ok_inv, asOperation_error⟩

theorem C9_safe_decode_shape_witness :
    (safeDecode (safeEncode tx0) = .ok tx0 ∧
      ∃ fields : List RItem,
        rlpDecode (safeEncode tx0) = .ok (.list fields) ∧
        fields.length = 9 ∧
        fields.get? 0 = some (.bytes tx0.to) ∧ tx0.to.length = 20 ∧
        fields.get? 7 = some (.bytes tx0.gasToken) ∧ tx0.gasToken.length = 20 ∧
        fields.get? 8 = some (.bytes tx0.refundReceiver) ∧ tx0.refundReceiver.length = 20 ∧
        ((fields.get? 3 = some (.bytes []) ∧ tx0.operation = .CALL) ∨
         (fields.get? 3 = some (.bytes [1]) ∧ tx0.operation = .DELEGATECALL))) ∧
    asOperation (.bytes [2]) = .error .fieldTypeMismatch :=
  ⟨⟨safeDecode_safeEncode tx0 tx0_wf,
    C9_safe_decode_shape.1 (safeEncode tx0) tx0 (safeDecode_safeEncode tx0 tx0_wf)⟩,
   C9_safe_decode_shape.2 (.bytes [2]) (by simp) (by simp)⟩

/-- C10: whenever TXE `decode` returns an envelope from a byte array, the
envelope has between 1 and 256 recipients: the count is read as an unsigned
byte plus one, so a successfully decoded TXE can never have zero recipients
(the binary format cannot express an empty recipient list). -/
theorem C10_decoded_recipient_count (data : List Nat) (E : TXE)
    (hbytes : ∀ b ∈ data, b < 256) (hdec : txeDecode data = some E) :
    1 ≤ E.recipients.length ∧ E.recipients.length ≤ 256 := by
  have h := txeDecode_recipients_count data E hdec
  exact ⟨h.1, h.2 hbytes⟩

theorem C10_decoded_recipient_count_witness :
    (∀ b ∈ txeBlob txe0, b < 256) ∧ txeDecode (txeBlob txe0) = some txe0 ∧
    1 ≤ txe0.recipients.length ∧ txe0.recipients.length ≤ 256 :=
  ⟨by decide, by decide,
   C10_decoded_recipient_count (txeBlob txe0) txe0 (by decide) (by decide)⟩

end SafeTxe
